import Mathlib

/-!
Verification of the reactivity engine of the use-reactive library
(src/unnamed/part_003, the packaged `useReactive` implementation with
subscriptions and history).

The engine is embedded shallowly: the mutable refs of the hook
(`stateMapRef`, `subscribersRef`, `history`, `historyEnabled`,
`redoStack`, the `setTrigger` re-render counter) become fields of an
`Engine` record, and each operation of the source (the proxy `set`
trap, `subscribe`, `enableHistory`, `undoLast`, `undo`, `redo`,
`revert`, `clear`, `snapshot`, `restore`) becomes a function on that
record.  JavaScript objects are identified by numeric ids (object
identity); their enumerable string-keyed data properties live in a
heap.  Subscriber callbacks and `setTrigger` are observers: an
invocation is recorded as an event (`Call` list, `trigger` counter)
rather than run, which is exactly what the claims observe.
-/

set_option maxRecDepth 4000

namespace UseReactive

mutual

/-- JavaScript data values as finite trees: primitives, arrays and plain
objects (enumerable string-keyed fields in insertion order, keys assumed
distinct as for any JavaScript object).  Functions, getters and cyclic
structures are outside the tracked-data fragment the engine's set path
manipulates. -/
inductive Value where
  | undefined : Value
  | null : Value
  | bool : Bool → Value
  | num : Int → Value
  | str : String → Value
  | arr : ValueList → Value
  | obj : FieldList → Value

/-- The elements of a JavaScript array value. -/
inductive ValueList where
  | nil : ValueList
  | cons : Value → ValueList → ValueList

/-- The enumerable own fields of a JavaScript object value. -/
inductive FieldList where
  | nil : FieldList
  | cons : String → Value → FieldList → FieldList

end

/-- Builds a `ValueList` from a Lean list (notation helper). -/
def vlist : List Value → ValueList
  | [] => .nil
  | v :: rest => .cons v (vlist rest)

/-- Builds a `FieldList` from a Lean list (notation helper). -/
def flist : List (String × Value) → FieldList
  | [] => .nil
  | (k, v) :: rest => .cons k v (flist rest)

/-- `typeof v === "object" && v` : true exactly for (truthy) arrays and
plain objects; `null` is typeof object but falsy. -/
def Value.isObj : Value → Bool
  | .arr _ => true
  | .obj _ => true
  | _ => false

/-- Number of elements of an array (= number of its index keys). -/
def vlen : ValueList → Nat
  | .nil => 0
  | .cons _ rest => 1 + vlen rest

/-- `Object.keys(x).length` for an object's field list. -/
def flen : FieldList → Nat
  | .nil => 0
  | .cons _ _ rest => 1 + flen rest

/-- Array elements with their JavaScript index keys, `Object.keys` style. -/
def indexFields : Nat → ValueList → FieldList
  | _, .nil => .nil
  | i, .cons v rest => .cons (toString i) v (indexFields (i + 1) rest)

/-- The enumerable own fields `Object.keys` iterates, with their values. -/
def jsFieldsOf : Value → FieldList
  | .arr xs => indexFields 0 xs
  | .obj fs => fs
  | _ => .nil

/-- JavaScript property read on a field list: the value, or `undefined`
when the key is absent. -/
def jsLookup : FieldList → String → Value
  | .nil, _ => .undefined
  | .cons k v rest, key => if k = key then v else jsLookup rest key

/-- JavaScript property write on a field list: replace in place when the
key exists, append otherwise (insertion-order semantics of plain
objects). -/
def fset : FieldList → String → Value → FieldList
  | .nil, key, v => .cons key v .nil
  | .cons k w rest, key, v =>
      if k = key then .cons k v rest else .cons k w (fset rest key v)

/-- JavaScript strict equality `===` on the values reaching the non-object
branch of the source's `isEqual`: value equality on primitives.  Two
object operands never reach that branch (they take the structural branch),
and two distinct value trees are never the same reference, so the
catch-all is `false`. -/
def strictEq : Value → Value → Bool
  | .undefined, .undefined => true
  | .null, .null => true
  | .bool a, .bool b => a == b
  | .num a, .num b => a == b
  | .str a, .str b => a == b
  | _, _ => false

mutual

/-- The source's deep structural `isEqual(x, y)`: when both operands are
truthy objects (arrays included — `Object.keys` of an array is its index
keys), compare the number of own keys and, for every key of `x`,
recursively compare `x[key]` with `y[key]` (`undefined` when `y` lacks
the key); otherwise `x === y`.  The source's single `if` is split here
by the head constructor of `x`, which is what `typeof x` dispatches on. -/
def isEqual (x y : Value) : Bool :=
  match x with
  | .arr xs =>
      if y.isObj then
        (vlen xs == flen (jsFieldsOf y)) && isEqualArr 0 xs (jsFieldsOf y)
      else false
  | .obj fs =>
      if y.isObj then
        (flen fs == flen (jsFieldsOf y)) && isEqualFields fs (jsFieldsOf y)
      else false
  | _ => strictEq x y

/-- `Object.keys(x).every(key => isEqual(x[key], y[key]))` when `x` is an
array: its keys are the indices in order. -/
def isEqualArr (i : Nat) (xs : ValueList) (ys : FieldList) : Bool :=
  match xs with
  | .nil => true
  | .cons v rest => isEqual v (jsLookup ys (toString i)) && isEqualArr (i + 1) rest ys

/-- `Object.keys(x).every(key => isEqual(x[key], y[key]))` when `x` is a
plain object. -/
def isEqualFields (fs : FieldList) (ys : FieldList) : Bool :=
  match fs with
  | .nil => true
  | .cons k v rest => isEqual v (jsLookup ys k) && isEqualFields rest ys

end

/-- Association-list lookup (used for the per-object maps keyed by object
id and for the property-tracking maps keyed by property name). -/
def alookup {κ α : Type} [DecidableEq κ] : List (κ × α) → κ → Option α
  | [], _ => none
  | (k, v) :: rest, key => if k = key then some v else alookup rest key

/-- Association-list update: `Map.set` / property assignment — replace in
place when the key exists, append otherwise. -/
def aset {κ α : Type} [DecidableEq κ] : List (κ × α) → κ → α → List (κ × α)
  | [], key, v => [(key, v)]
  | (k, w) :: rest, key, v =>
      if k = key then (k, v) :: rest else (k, w) :: aset rest key v

/-- A subscriber as registered by `subscribe`: a recording flag and the
captured `(object, property)` targets.  The user callback itself is
identified by the subscriber's registration index; its invocations are
logged as `Call` events. -/
structure Subscriber where
  recording : Bool
  targets : List (Nat × String)

/-- One subscriber callback invocation
`subscriber.callback.call(proxy, prop, value, previousValue)`:
the subscriber's registration index and the three arguments. -/
structure Call where
  subIdx : Nat
  key : String
  value : Value
  previous : Value

/-- One history record
`{ id, timestamp, obj (the proxy of the written object), key, previous, value }`.
`crypto.randomUUID()` is modeled by a fresh counter value, the proxy by
the id of the object it wraps. -/
structure Entry where
  eid : Nat
  timestamp : Nat
  objId : Nat
  key : String
  previous : Value
  value : Value

/-- The hook's per-instance mutable state.  `heap` maps object ids to the
fields of the underlying raw objects, `smaps` is `stateMapRef` (per
object: property name ↦ (modified flag, cached prop value) — the
`childMap` slot of the source triple is carried along untouched by the
set trap and is omitted), `trigger` counts `setTrigger` re-render
requests, `calls` logs subscriber callback invocations, `nextEid`
generates unique entry ids and `now` is the `Date.now()` clock. -/
structure Engine where
  heap : List (Nat × FieldList)
  smaps : List (Nat × List (String × (Bool × Value)))
  subs : List Subscriber
  histEnabled : Bool
  maxDepth : Nat
  history : List Entry
  redoStack : List Entry
  trigger : Nat
  calls : List Call
  nextEid : Nat
  now : Nat

/-- Read `obj[prop]` on the raw underlying object. -/
def Engine.objGet (e : Engine) (objId : Nat) (key : String) : Value :=
  match alookup e.heap objId with
  | some fs => jsLookup fs key
  | none => .undefined

/-- The raw fields of an object (empty when the id is unknown). -/
def Engine.fieldsOf (e : Engine) (objId : Nat) : FieldList :=
  match alookup e.heap objId with
  | some fs => fs
  | none => .nil

/-- `stateMap?.has(prop)` after `stateMapRef.current?.get(obj)`: is the
property in the tracking map of this object? -/
def trackedKey (e : Engine) (objId : Nat) (key : String) : Bool :=
  match alookup e.smaps objId with
  | none => false
  | some smap => (alookup smap key).isSome

/-- The subscriber-notification loop of the set trap: every subscriber
that is not recording and whose target list contains this
`(object, property)` pair has its callback invoked, in registration
order, with `(prop, value, previousValue)`. -/
def notifyFrom (i : Nat) (subs : List Subscriber) (objId : Nat) (key : String)
    (v prev : Value) : List Call :=
  match subs with
  | [] => []
  | s :: rest =>
      (if !s.recording && s.targets.any (fun t => t.1 == objId && t.2 == key)
       then [⟨i, key, v, prev⟩] else [])
      ++ notifyFrom (i + 1) rest objId key v prev

/-- All callback invocations one write produces. -/
def notifications (subs : List Subscriber) (objId : Nat) (key : String)
    (v prev : Value) : List Call :=
  notifyFrom 0 subs objId key v prev

/-- The proxy `set` trap of `createReactiveProxy`, for a write of `v` to
`proxy.key` where the proxy wraps object `objId`:

1. look up the object's tracking map and reject the write
   (`return false`, nothing happens) when the property is untracked;
2. read the previous value from the raw object;
3. if `isEqual(previousValue, value)` is false: set the modified flag,
   write the raw property, push a history entry when history is enabled
   (dropping the oldest entry first when the log is at `maxDepth`), and
   request a re-render;
4. in every non-rejected case, notify the matching subscribers;
5. `return true`. -/
def setTrap (e : Engine) (objId : Nat) (key : String) (v : Value) :
    Bool × Engine :=
  match alookup e.smaps objId with
  | none => (false, e)
  | some smap =>
    match alookup smap key with
    | none => (false, e)
    | some info =>
      let previous := e.objGet objId key
      let e1 :=
        if isEqual previous v then e
        else
          let e2 : Engine :=
            { e with
              smaps := aset e.smaps objId (aset smap key (true, info.2)),
              heap := aset e.heap objId (fset (e.fieldsOf objId) key v) }
          let e3 :=
            if e2.histEnabled then
              let h :=
                if e2.maxDepth ≤ e2.history.length then e2.history.drop 1
                else e2.history
              { e2 with
                history := h ++ [⟨e2.nextEid, e2.now, objId, key, previous, v⟩],
                nextEid := e2.nextEid + 1 }
            else e2
          { e3 with trigger := e3.trigger + 1 }
      (true, { e1 with calls := e1.calls ++ notifications e1.subs objId key v previous })

/-- The `get` trap's recording step: while a subscriber is recording,
every property read through any reactive proxy appends that
`(object, property)` pair to its target list. -/
def recordRead (e : Engine) (objId : Nat) (key : String) : Engine :=
  { e with
    subs := e.subs.map fun s =>
      if s.recording then { s with targets := s.targets ++ [(objId, key)] }
      else s }

/-- Flips `subscriber.recording = false` on the subscriber at the given
registration index (the closure reference in the source). -/
def stopRec : List Subscriber → Nat → List Subscriber
  | [], _ => []
  | s :: rest, 0 => { s with recording := false } :: rest
  | s :: rest, n + 1 => s :: stopRec rest n

/-- `subscribe(targets, callback)`: push a recording subscriber with an
empty target list, run the selector — abstracted by the sequence of
proxy property reads it performs, each recorded by the get trap — and
flip recording off.  (The returned unsubscribe closure is not needed by
any claim.) -/
def subscribe (e : Engine) (reads : List (Nat × String)) : Engine :=
  let e1 : Engine := { e with subs := e.subs ++ [⟨true, []⟩] }
  let e2 := reads.foldl (fun acc r => recordRead acc r.1 r.2) e1
  { e2 with subs := stopRec e2.subs e.subs.length }

/-- `enableHistory(enabled?, maxDepth?)`: set the flag when given
(clearing both stacks when disabling), then set the depth when given. -/
def enableHistory (enabled : Option Bool) (maxDepth : Option Nat)
    (e : Engine) : Engine :=
  let e1 :=
    match enabled with
    | some b =>
        let e' : Engine := { e with histEnabled := b }
        if b then e' else { e' with history := [], redoStack := [] }
    | none => e
  match maxDepth with
  | some d => { e1 with maxDepth := d }
  | none => e1

/-- `undoLast()`: pop the most recent history entry, push a copy onto the
redo stack (dropping its oldest entry at the `maxDepth` cap), and write
`previous` back through the entry's proxy with history recording
suspended around the write. -/
def undoLast (e : Engine) : Engine :=
  match e.history.getLast? with
  | none => e
  | some lastChange =>
      let e1 : Engine := { e with history := e.history.dropLast }
      let rs :=
        if e1.maxDepth ≤ e1.redoStack.length then e1.redoStack.drop 1
        else e1.redoStack
      let e2 : Engine := { e1 with redoStack := rs ++ [lastChange] }
      let saved := e2.histEnabled
      let e3 : Engine := { e2 with histEnabled := false }
      let e4 := (setTrap e3 lastChange.objId lastChange.key lastChange.previous).2
      { e4 with histEnabled := saved }

/-- The `while (history.length > stop) undoLast()` loops of `undo` and
`restore`.  Each iteration pops exactly one entry (the suspended write
cannot push), so fuel `e.history.length` always suffices. -/
def undoLoop : Nat → Nat → Engine → Engine
  | 0, _, e => e
  | f + 1, stop, e =>
      if stop < e.history.length then undoLoop f stop (undoLast e) else e

/-- `undo(index?)`: no argument undoes the last entry; an in-range index
pops entries until the log length equals the index (out-of-range indices,
negative included, are rejected). -/
def undo (idx : Option Int) (e : Engine) : Engine :=
  match idx with
  | none => undoLast e
  | some i =>
      if i < 0 ∨ (e.history.length : Int) ≤ i then e
      else undoLoop e.history.length i.toNat e

/-- `redo(all?)`: pop one entry off the redo stack and re-apply `value`
through the entry's proxy — with no history suspension — repeating while
`all` and the stack is non-empty.  Fuel `e.redoStack.length` suffices:
each iteration pops one entry and the set trap never touches the redo
stack. -/
def redoLoop : Nat → Bool → Engine → Engine
  | 0, _, e => e
  | f + 1, all, e =>
      match e.redoStack.getLast? with
      | none => e
      | some redoChange =>
          let e1 : Engine := { e with redoStack := e.redoStack.dropLast }
          let e2 := (setTrap e1 redoChange.objId redoChange.key redoChange.value).2
          if all && 0 < e2.redoStack.length then redoLoop f all e2 else e2

/-- `redo(all?)` entry point (`return` on an empty redo stack). -/
def redo (all : Bool) (e : Engine) : Engine :=
  if e.redoStack.length = 0 then e else redoLoop e.redoStack.length all e

/-- `revert(index)`: reject out-of-range indices; otherwise write the
entry's `previous` back through its proxy with history recording
suspended, then splice exactly that entry out of the log. -/
def revert (i : Int) (e : Engine) : Engine :=
  if i < 0 ∨ (e.history.length : Int) ≤ i then e
  else
    match e.history.get? i.toNat with
    | none => e
    | some entry =>
        let saved := e.histEnabled
        let e1 : Engine := { e with histEnabled := false }
        let e2 := (setTrap e1 entry.objId entry.key entry.previous).2
        let e3 : Engine := { e2 with histEnabled := saved }
        { e3 with history := e3.history.eraseIdx i.toNat }

/-- `clear()`: empty both stacks and request a re-render. -/
def clearHistory (e : Engine) : Engine :=
  { e with history := [], redoStack := [], trigger := e.trigger + 1 }

/-- `snapshot()`: the id of the most recent entry, `null` when empty. -/
def snapshot (e : Engine) : Option Nat :=
  match e.history.getLast? with
  | some en => some en.eid
  | none => none

/-- `findIndex(entry => entry.id === id)` on the history log. -/
def findIdxFrom (i : Nat) (es : List Entry) (s : Nat) : Option Nat :=
  match es with
  | [] => none
  | en :: rest => if en.eid = s then some i else findIdxFrom (i + 1) rest s

/-- `restore(id | null)`: resolve the id to an index (0 for `null`),
`return` when an id is not found, otherwise clear the redo stack and
`undo()` entries from the end of the log down to (for `null`: including)
the identified entry. -/
def restore (id : Option Nat) (e : Engine) : Engine :=
  match id with
  | none =>
      let e1 : Engine := { e with redoStack := [] }
      undoLoop e1.history.length 0 e1
  | some s =>
      match findIdxFrom 0 e.history s with
      | none => e
      | some i =>
          let e1 : Engine := { e with redoStack := [] }
          undoLoop e1.history.length (i + 1) e1

/-- Iterated `undo()` (no argument), as in "calling undo() N times". -/
def undoN : Nat → Engine → Engine
  | 0, e => e
  | n + 1, e => undoN n (undo none e)

/-- Iterated proxy writes of a list of values to one property. -/
def writeSeq (e : Engine) (objId : Nat) (key : String) : List Value → Engine
  | [] => e
  | v :: rest => writeSeq (setTrap e objId key v).2 objId key rest

/-- Consecutive distinctness of a write sequence starting from the current
value: each value is non-`isEqual` to its predecessor, in both argument
orders (`isEqual` is not symmetric on degenerate objects).  Implied by
the claims' "pairwise-distinct (non-isEqual) values". -/
def distinctSeq : Value → List Value → Bool
  | _, [] => true
  | cur, v :: rest =>
      !isEqual cur v && !isEqual v cur && distinctSeq v rest

/-- The entries a sequence of value-changing writes to `(objId, key)`
leaves in the log: each entry targets that property, records the running
value as `previous`, and is a genuine change in the order the undo write
re-checks (`isEqual(current, previous)` with `current = en.value`). -/
def chainFrom (objId : Nat) (key : String) : Value → List Entry → Prop
  | _, [] => True
  | cur, en :: rest =>
      en.objId = objId ∧ en.key = key ∧ en.previous = cur ∧
      isEqual en.value en.previous = false ∧ chainFrom objId key en.value rest

/-- The value after replaying a chain of entries (the last written value). -/
def chainLast : Value → List Entry → Value
  | v, [] => v
  | _, en :: rest => chainLast en.value rest


/-!
The copy-on-write coordinator and the `recursive` parameter of
`subscribe` belong to the current `useReactive` (the version its README
and test suite exercise via `allowBackgroundMutations` and the
`'deep'` flag); that implementation file is not part of the packaged
sources — only its README, tests and callers are.  The two models below
are therefore built from the specification's own words (spec §4.4 and
§4.6) and marked as such.
-/

/-- Modelled from the spec: one reactive instance registered against a
shared underlying object in the Copy-on-Write Coordinator (spec §4.6) —
the `allowBackgroundMutations` option, the version it last observed, an
optional private state override (a shallow copy of the shared object),
and a counter of re-renders requested for it. -/
structure CowInstance where
  allowBg : Bool
  lastVersion : Nat
  override : Option FieldList
  rendered : Nat

/-- Modelled from the spec: the per-underlying-object version record of
the Copy-on-Write Coordinator — the live shared object, its
monotonically increasing version counter, and the registered instances. -/
structure CowSystem where
  shared : FieldList
  version : Nat
  instances : List CowInstance

/-- Modelled from the spec: an instance's read is served from its private
override when it has one, and from the live shared object otherwise. -/
def cowRead (sys : CowSystem) (i : Nat) (key : String) : Value :=
  match sys.instances.get? i with
  | none => .undefined
  | some inst =>
      match inst.override with
      | some ov => jsLookup ov key
      | none => jsLookup sys.shared key

/-- Modelled from the spec (§4.6): the per-instance preemption step of a
value-changing write by instance `w`.  An instance that already diverged
keeps writing its own override.  A write to the live shared object
increments the shared version and, for every other registered instance:
a lagging instance that does not allow background mutations receives a
shallow copy of the pre-write object as its override and the new
version; an instance that allows background mutations keeps observing
the live object, records the new version, and has a re-render requested
for it. -/
def cowUpdate (w newVer : Nat) (pre : FieldList) :
    Nat → List CowInstance → List CowInstance
  | _, [] => []
  | j, inst :: rest =>
      (if j = w then { inst with lastVersion := newVer }
       else if inst.allowBg then
         { inst with lastVersion := newVer, rendered := inst.rendered + 1 }
       else if inst.lastVersion < newVer then
         { inst with override := some pre, lastVersion := newVer }
       else inst) :: cowUpdate w newVer pre (j + 1) rest

/-- Modelled from the spec (§4.6), continued: the write itself. -/
def cowWrite (sys : CowSystem) (w : Nat) (key : String) (v : Value) :
    CowSystem :=
  match sys.instances.get? w with
  | none => sys
  | some wi =>
      match wi.override with
      | some ov =>
          { sys with
            instances := sys.instances.set w { wi with override := some (fset ov key v) } }
      | none =>
          if isEqual (jsLookup sys.shared key) v then sys
          else
            { shared := fset sys.shared key v,
              version := sys.version + 1,
              instances := cowUpdate w (sys.version + 1) sys.shared 0 sys.instances }

/-- A fresh default-options instance (copy-on-write isolation). -/
def freshDefault : CowInstance := ⟨false, 0, none, 0⟩

/-- A fresh instance created with `allowBackgroundMutations: true`. -/
def freshBg : CowInstance := ⟨true, 0, none, 0⟩

/-- Modelled from the spec: the object graph the `recursive` walk of
`subscribe` descends — object ids mapped to fields that are either plain
data (scalars and arrays) or a nested plain object reference. -/
inductive SField where
  | data : Value → SField
  | child : Nat → SField

/-- Modelled from the spec: a heap of nested plain objects. -/
def SHeap := List (Nat × List (String × SField))

/-- Modelled from the spec: the `recursive` argument of `subscribe` —
omitted/false, `true` (one level), or the literal deep-mode value
`'deep'`. -/
inductive RecMode where
  | off : RecMode
  | one : RecMode
  | deep : RecMode

mutual

/-- Modelled from the spec (§4.4): the walk over a selected object's own
enumerable non-function, non-getter properties, folding each
`(object, key)` pair into the target set; when `deep` is set it recurses
through all levels of nested plain objects (arrays are carried as data).
The fuel only bounds the descent; cyclic graphs are out of scope, and
any fuel past the nesting depth gives the same targets. -/
def walkTargets : Nat → SHeap → Nat → Bool → List (Nat × String)
  | 0, _, _, _ => []
  | f + 1, h, o, deep =>
      match alookup h o with
      | none => []
      | some fields => walkFields f h o deep fields

/-- The per-field part of the walk: one target per own property, plus —
in deep mode — the recursive walk of each nested object child. -/
def walkFields : Nat → SHeap → Nat → Bool → List (String × SField) →
    List (Nat × String)
  | _, _, _, _, [] => []
  | f, h, o, deep, (k, sv) :: rest =>
      (o, k) ::
        ((match sv with
          | .child c => if deep then walkTargets f h c deep else []
          | .data _ => []) ++ walkFields f h o deep rest)

end

/-- Modelled from the spec: the target set of
`subscribe(() => [state.key], cb, recursive?)` — the selector read
`(root, key)` itself, plus, when the selected value is a nested plain
object and `recursive` is set, the walked child targets (one level for
`true`, all levels for `'deep'`). -/
def subscribeTargets (h : SHeap) (root : Nat) (key : String) (mode : RecMode) :
    List (Nat × String) :=
  let base := [(root, key)]
  match alookup h root with
  | none => base
  | some fields =>
      match alookup fields key with
      | some (.child o) =>
          match mode with
          | .off => base
          | .one => base ++ walkTargets (h.length + 1) h o false
          | .deep => base ++ walkTargets (h.length + 1) h o true
      | _ => base

/-- The write-notification test of the set trap: does a write on
`(objId, key)` fire a subscriber with these targets? -/
def firesOn (targets : List (Nat × String)) (objId : Nat) (key : String) : Bool :=
  targets.any (fun t => t.1 == objId && t.2 == key)

/-!  Concrete fixtures used by the counterexamples and witnesses. -/

/-- A one-object engine: object `0` has tracked properties `a = 0` and
`b = 5`, one registered (non-recording) subscriber targeting `(0, a)`,
history enabled at the default depth 100, everything else pristine. -/
def baseEngine : Engine :=
  { heap := [(0, flist [("a", .num 0), ("b", .num 5)])],
    smaps := [(0, [("a", (false, Value.num 0)), ("b", (false, Value.num 5))])],
    subs := [⟨false, [(0, "a")]⟩],
    histEnabled := true, maxDepth := 100, history := [], redoStack := [],
    trigger := 0, calls := [], nextEid := 0, now := 0 }

/-- `baseEngine` without subscribers. -/
def plainEngine : Engine := { baseEngine with subs := [] }

/-- `plainEngine` with history capped at depth 1. -/
def depth1Engine : Engine := { plainEngine with maxDepth := 1 }

/-- `plainEngine` with history capped at depth 0. -/
def depth0Engine : Engine := { plainEngine with maxDepth := 0 }

/-- An engine whose log is exactly at its cap (`maxDepth = 1`, one entry). -/
def fullEngine : Engine := (setTrap depth1Engine 0 "a" (Value.num 1)).2

/-- The engine after one write of `1` to `a` and one `undo()`: value back
to `0`, empty log, one entry on the redo stack. -/
def afterUndoEngine : Engine := undo none (setTrap plainEngine 0 "a" (Value.num 1)).2

/-- The engine after two writes (`0 → 1 → 2`) of `a` with history on. -/
def twoWritesEngine : Engine :=
  (setTrap (setTrap plainEngine 0 "a" (Value.num 1)).2 0 "a" (Value.num 2)).2

/-- The concrete three-level heap of the claim:
object 0 = `{ obj: <1> }`, object 1 = `{ inner: <2> }`,
object 2 = `{ x: 0 }`. -/
def c8Heap : SHeap :=
  [(0, [("obj", SField.child 1)]), (1, [("inner", SField.child 2)]),
   (2, [("x", SField.data (Value.num 0))])]


theorem alookup_aset_self {κ α : Type} [DecidableEq κ] (l : List (κ × α))
    (k : κ) (v : α) : alookup (aset l k v) k = some v := by
  induction l with
  | nil => simp [aset, alookup]
  | cons p rest ih =>
      by_cases h : p.1 = k
      · simp [aset, alookup, h]
      · simp [aset, alookup, h, ih]

theorem alookup_aset_other {κ α : Type} [DecidableEq κ] (l : List (κ × α))
    (k k' : κ) (v : α) (hne : k ≠ k') :
    alookup (aset l k v) k' = alookup l k' := by
  induction l with
  | nil => simp [aset, alookup, hne]
  | cons p rest ih =>
      by_cases h : p.1 = k
      · simp only [aset, h, if_pos rfl]
        simp [alookup, hne, h]
      · simp [aset, alookup, h, ih]

theorem trackedKey_iff {e : Engine} {o : Nat} {k : String} :
    trackedKey e o k = true ↔
      ∃ smap info, alookup e.smaps o = some smap ∧ alookup smap k = some info := by
  unfold trackedKey
  split
  next h1 => simp [h1]
  next smap h1 =>
    rw [Option.isSome_iff_exists]
    constructor
    · rintro ⟨info, hi⟩
      exact ⟨smap, info, h1, hi⟩
    · rintro ⟨smap2, info, hs, hi⟩
      rw [h1] at hs
      injection hs with h
      subst h
      exact ⟨info, hi⟩

theorem setTrap_preserved (e : Engine) (o : Nat) (k : String) (v : Value) :
    (setTrap e o k v).2.redoStack = e.redoStack ∧
    (setTrap e o k v).2.subs = e.subs ∧
    (setTrap e o k v).2.histEnabled = e.histEnabled ∧
    (setTrap e o k v).2.maxDepth = e.maxDepth ∧
    (setTrap e o k v).2.now = e.now := by
  unfold setTrap
  split
  · exact ⟨rfl, rfl, rfl, rfl, rfl⟩
  next smap h1 =>
    split
    · exact ⟨rfl, rfl, rfl, rfl, rfl⟩
    next info h2 =>
      by_cases heq : isEqual (e.objGet o k) v
      · simp [heq]
      · by_cases hh : e.histEnabled
        · by_cases hcap : e.maxDepth ≤ e.history.length <;>
            simp [heq, hh, hcap]
        · simp [heq, hh]

theorem jsLookup_fset_self (fs : FieldList) (k : String) (v : Value) :
    jsLookup (fset fs k v) k = v := by
  match fs with
  | .nil => simp [fset, jsLookup]
  | .cons k0 w rest =>
      by_cases h : k0 = k
      · simp [fset, jsLookup, h]
      · simp [fset, jsLookup, h, jsLookup_fset_self rest k v]

theorem setTrap_history_suspended (e : Engine) (o : Nat) (k : String)
    (v : Value) (hh : e.histEnabled = false) :
    (setTrap e o k v).2.history = e.history := by
  unfold setTrap
  split
  · rfl
  next smap h1 =>
    split
    · rfl
    next info h2 =>
      by_cases heq : isEqual (e.objGet o k) v
      · simp [heq]
      · simp [heq, hh]

theorem setTrap_history_push (e : Engine) (o : Nat) (k : String) (v : Value)
    (htrk : trackedKey e o k = true)
    (hne : isEqual (e.objGet o k) v = false)
    (hh : e.histEnabled = true)
    (hcap : e.history.length < e.maxDepth) :
    (setTrap e o k v).2.history =
      e.history ++ [⟨e.nextEid, e.now, o, k, e.objGet o k, v⟩] := by
  obtain ⟨smap, info, h1, h2⟩ := trackedKey_iff.mp htrk
  simp only [setTrap, h1, h2]
  simp [hne, hh, Nat.not_le.mpr hcap]

theorem setTrap_history_push_full (e : Engine) (o : Nat) (k : String) (v : Value)
    (htrk : trackedKey e o k = true)
    (hne : isEqual (e.objGet o k) v = false)
    (hh : e.histEnabled = true)
    (hcap : e.maxDepth ≤ e.history.length) :
    (setTrap e o k v).2.history =
      e.history.drop 1 ++ [⟨e.nextEid, e.now, o, k, e.objGet o k, v⟩] := by
  obtain ⟨smap, info, h1, h2⟩ := trackedKey_iff.mp htrk
  simp only [setTrap, h1, h2]
  simp [hne, hh, hcap]

theorem setTrap_objGet (e : Engine) (o : Nat) (k : String) (v : Value)
    (htrk : trackedKey e o k = true)
    (hne : isEqual (e.objGet o k) v = false) :
    (setTrap e o k v).2.objGet o k = v := by
  obtain ⟨smap, info, h1, h2⟩ := trackedKey_iff.mp htrk
  simp only [setTrap, h1, h2, hne]
  by_cases hh : e.histEnabled
  · by_cases hcap : e.maxDepth ≤ e.history.length <;>
      simp [hh, hcap, Engine.objGet, alookup_aset_self, jsLookup_fset_self]
  · simp [hh, Engine.objGet, alookup_aset_self, jsLookup_fset_self]

theorem setTrap_calls (e : Engine) (o : Nat) (k : String) (v : Value)
    (htrk : trackedKey e o k = true) :
    (setTrap e o k v).2.calls =
      e.calls ++ notifications e.subs o k v (e.objGet o k) := by
  obtain ⟨smap, info, h1, h2⟩ := trackedKey_iff.mp htrk
  simp only [setTrap, h1, h2]
  by_cases heq : isEqual (e.objGet o k) v
  · simp [heq]
  · by_cases hh : e.histEnabled
    · by_cases hcap : e.maxDepth ≤ e.history.length <;> simp [heq, hh, hcap]
    · simp [heq, hh]

theorem setTrap_trackedKey (e : Engine) (o : Nat) (k : String) (v : Value)
    (o' : Nat) (k' : String) :
    trackedKey (setTrap e o k v).2 o' k' = trackedKey e o' k' := by
  unfold setTrap
  split
  · rfl
  next smap h1 =>
    split
    · rfl
    next info h2 =>
      have hsm :
          ∀ e' : Engine, e'.smaps = aset e.smaps o (aset smap k (true, info.2)) →
            trackedKey e' o' k' = trackedKey e o' k' := by
        intro e' he'
        by_cases ho : o = o'
        · subst ho
          by_cases hk : k = k'
          · subst hk
            simp only [trackedKey, he', alookup_aset_self, h1, h2, Option.isSome]
          · simp only [trackedKey, he', alookup_aset_self, h1,
              alookup_aset_other _ _ _ _ hk]
        · simp only [trackedKey, he', alookup_aset_other _ _ _ _ ho]
      by_cases heq : isEqual (e.objGet o k) v
      · simp [heq, trackedKey]
      · by_cases hh : e.histEnabled
        · by_cases hcap : e.maxDepth ≤ e.history.length <;>
            · simp only [heq, hh, hcap, if_true, if_false, Bool.false_eq_true]
              exact hsm _ (by simp [heq, hh, hcap])
        · simp only [heq, hh]
          exact hsm _ (by simp [heq, hh])

theorem setTrap_redoStack (e : Engine) (o : Nat) (k : String) (v : Value) :
    (setTrap e o k v).2.redoStack = e.redoStack :=
  (setTrap_preserved e o k v).1

theorem setTrap_subs (e : Engine) (o : Nat) (k : String) (v : Value) :
    (setTrap e o k v).2.subs = e.subs :=
  (setTrap_preserved e o k v).2.1

theorem setTrap_histEnabled (e : Engine) (o : Nat) (k : String) (v : Value) :
    (setTrap e o k v).2.histEnabled = e.histEnabled :=
  (setTrap_preserved e o k v).2.2.1

theorem setTrap_maxDepth (e : Engine) (o : Nat) (k : String) (v : Value) :
    (setTrap e o k v).2.maxDepth = e.maxDepth :=
  (setTrap_preserved e o k v).2.2.2.1

theorem setTrap_now (e : Engine) (o : Nat) (k : String) (v : Value) :
    (setTrap e o k v).2.now = e.now :=
  (setTrap_preserved e o k v).2.2.2.2

theorem trackedKey_congr {e1 e2 : Engine} (h : e1.smaps = e2.smaps)
    (o : Nat) (k : String) : trackedKey e1 o k = trackedKey e2 o k := by
  unfold trackedKey
  rw [h]

theorem objGet_congr {e1 e2 : Engine} (h : e1.heap = e2.heap)
    (o : Nat) (k : String) : e1.objGet o k = e2.objGet o k := by
  unfold Engine.objGet
  rw [h]

theorem map_nonrecording_id (pre : List Subscriber) (o : Nat) (k : String)
    (hrec : ∀ s ∈ pre, s.recording = false) :
    (pre.map fun s =>
      if s.recording then { s with targets := s.targets ++ [(o, k)] } else s) = pre := by
  induction pre with
  | nil => rfl
  | cons s rest ih =>
      have h1 : s.recording = false := hrec s (List.mem_cons_self s rest)
      simp [h1, ih (fun t ht => hrec t (List.mem_cons_of_mem _ ht))]

theorem foldl_recordRead_spec (reads : List (Nat × String)) :
    ∀ (e : Engine) (pre : List Subscriber) (ts : List (Nat × String)),
      (∀ s ∈ pre, s.recording = false) →
      e.subs = pre ++ [⟨true, ts⟩] →
      (reads.foldl (fun acc r => recordRead acc r.1 r.2) e) =
        { e with subs := pre ++ [⟨true, ts ++ reads⟩] } := by
  induction reads with
  | nil =>
      intro e pre ts hrec hsubs
      simp [← hsubs]
  | cons r rest ih =>
      intro e pre ts hrec hsubs
      simp only [List.foldl_cons]
      have hrr : recordRead e r.1 r.2 =
          { e with subs := pre ++ [⟨true, ts ++ [(r.1, r.2)]⟩] } := by
        unfold recordRead
        rw [hsubs, List.map_append, map_nonrecording_id pre r.1 r.2 hrec]
        simp
      rw [hrr]
      rw [ih _ pre (ts ++ [(r.1, r.2)]) hrec (by simp)]
      simp

theorem stopRec_append (pre : List Subscriber) (s : Subscriber) :
    stopRec (pre ++ [s]) pre.length = pre ++ [{ s with recording := false }] := by
  induction pre with
  | nil => rfl
  | cons p rest ih => simp [stopRec, ih]

/-- Registering a subscriber while no other subscriber is recording
appends exactly one non-recording subscriber whose targets are the reads
the selector performed; nothing else in the engine changes. -/
theorem subscribe_spec (e : Engine) (reads : List (Nat × String))
    (hrec : ∀ s ∈ e.subs, s.recording = false) :
    subscribe e reads = { e with subs := e.subs ++ [⟨false, reads⟩] } := by
  show ({ (reads.foldl (fun acc r => recordRead acc r.1 r.2)
      { e with subs := e.subs ++ [⟨true, []⟩] }) with
      subs := stopRec (reads.foldl (fun acc r => recordRead acc r.1 r.2)
        { e with subs := e.subs ++ [⟨true, []⟩] }).subs e.subs.length } : Engine) = _
  rw [foldl_recordRead_spec reads _ e.subs [] hrec (by simp)]
  simp only [List.nil_append]
  rw [stopRec_append e.subs ⟨true, reads⟩]

theorem notifyFrom_nil (i : Nat) (o : Nat) (k : String) (v p : Value) :
    notifyFrom i [] o k v p = [] := rfl

theorem notifyFrom_cons (i : Nat) (s : Subscriber) (rest : List Subscriber)
    (o : Nat) (k : String) (v p : Value) :
    notifyFrom i (s :: rest) o k v p =
      (if !s.recording && s.targets.any (fun t => t.1 == o && t.2 == k)
       then [⟨i, k, v, p⟩] else [])
      ++ notifyFrom (i + 1) rest o k v p := rfl

theorem notifyFrom_append (o : Nat) (k : String) (v p : Value)
    (xs : List Subscriber) :
    ∀ (i : Nat) (ys : List Subscriber),
      notifyFrom i (xs ++ ys) o k v p =
        notifyFrom i xs o k v p ++ notifyFrom (i + xs.length) ys o k v p := by
  induction xs with
  | nil => intro i ys; simp [notifyFrom_nil]
  | cons s rest ih =>
      intro i ys
      rw [List.cons_append, notifyFrom_cons, notifyFrom_cons, ih (i + 1) ys,
        List.append_assoc]
      have harith : i + 1 + rest.length = i + (s :: rest).length := by
        simp
        omega
      rw [harith]

theorem notifyFrom_subIdx (o : Nat) (k : String) (v p : Value)
    (subs : List Subscriber) :
    ∀ (i : Nat), ∀ c ∈ notifyFrom i subs o k v p,
      i ≤ c.subIdx ∧ c.subIdx < i + subs.length := by
  induction subs with
  | nil => intro i c hc; simp [notifyFrom_nil] at hc
  | cons s rest ih =>
      intro i c hc
      rw [notifyFrom_cons] at hc
      rcases List.mem_append.mp hc with hc | hc
      · by_cases hcond : (!s.recording && s.targets.any fun t => t.1 == o && t.2 == k) = true
        · rw [if_pos hcond] at hc
          simp only [List.mem_singleton] at hc
          subst hc
          simp
        · rw [if_neg hcond] at hc
          simp at hc
      · have := ih (i + 1) c hc
        simp only [List.length_cons]
        omega

/-- When the log is non-empty, `undoLast` is: pop the last entry, push it
onto the (possibly capped) redo stack, and run the suspended write. -/
theorem undoLast_eq (e : Engine) (lastChange : Entry)
    (h : e.history.getLast? = some lastChange) :
    undoLast e =
      { (setTrap { e with
            history := e.history.dropLast,
            redoStack := (if e.maxDepth ≤ e.redoStack.length
              then e.redoStack.drop 1 else e.redoStack) ++ [lastChange],
            histEnabled := false }
          lastChange.objId lastChange.key lastChange.previous).2
        with histEnabled := e.histEnabled } := by
  unfold undoLast
  rw [h]

theorem undoLast_empty (e : Engine) (h : e.history = []) : undoLast e = e := by
  unfold undoLast
  rw [List.getLast?_eq_none_iff.mpr h]

theorem undoLast_history (e : Engine) :
    (undoLast e).history = e.history.dropLast := by
  cases h : e.history.getLast? with
  | none =>
      rw [undoLast_empty e (List.getLast?_eq_none_iff.mp h),
        List.getLast?_eq_none_iff.mp h]
      rfl
  | some lastChange =>
      rw [undoLast_eq e lastChange h]
      show (setTrap _ _ _ _).2.history = _
      rw [setTrap_history_suspended _ _ _ _ rfl]

theorem undoLast_histEnabled (e : Engine) :
    (undoLast e).histEnabled = e.histEnabled := by
  cases h : e.history.getLast? with
  | none => rw [undoLast_empty e (List.getLast?_eq_none_iff.mp h)]
  | some lastChange => rw [undoLast_eq e lastChange h]

theorem undoLast_maxDepth (e : Engine) :
    (undoLast e).maxDepth = e.maxDepth := by
  cases h : e.history.getLast? with
  | none => rw [undoLast_empty e (List.getLast?_eq_none_iff.mp h)]
  | some lastChange =>
      rw [undoLast_eq e lastChange h]
      show (setTrap _ _ _ _).2.maxDepth = _
      rw [setTrap_maxDepth]

theorem undoLast_trackedKey (e : Engine) (o : Nat) (k : String) :
    trackedKey (undoLast e) o k = trackedKey e o k := by
  cases h : e.history.getLast? with
  | none => rw [undoLast_empty e (List.getLast?_eq_none_iff.mp h)]
  | some lastChange =>
      rw [undoLast_eq e lastChange h]
      exact (trackedKey_congr rfl o k).trans
        ((setTrap_trackedKey _ _ _ _ o k).trans (trackedKey_congr rfl o k))

theorem undoLast_redo (e : Engine) (lastChange : Entry)
    (h : e.history.getLast? = some lastChange)
    (hcap : e.redoStack.length < e.maxDepth) :
    (undoLast e).redoStack = e.redoStack ++ [lastChange] := by
  rw [undoLast_eq e lastChange h]
  show (setTrap _ _ _ _).2.redoStack = _
  rw [setTrap_redoStack]
  simp [Nat.not_le.mpr hcap]

theorem undoLast_objGet (e : Engine) (lastChange : Entry)
    (h : e.history.getLast? = some lastChange)
    (htrk : trackedKey e lastChange.objId lastChange.key = true)
    (hne : isEqual (e.objGet lastChange.objId lastChange.key)
      lastChange.previous = false) :
    (undoLast e).objGet lastChange.objId lastChange.key = lastChange.previous := by
  rw [undoLast_eq e lastChange h]
  refine (objGet_congr rfl _ _).trans (setTrap_objGet _ _ _ _ ?_ ?_)
  · exact (trackedKey_congr rfl _ _).trans htrk
  · exact ((objGet_congr rfl _ _).trans · ▸ hne) rfl

/-- Interface lemma: what one `undoLast` does to the log, the value and
the bookkeeping, for a non-empty log whose last entry is a tracked,
genuinely-changing record. -/
theorem undoLast_step (e : Engine) (es : List Entry) (lastChange : Entry)
    (hh : e.history = es ++ [lastChange])
    (htrk : trackedKey e lastChange.objId lastChange.key = true)
    (hcur : e.objGet lastChange.objId lastChange.key = lastChange.value)
    (hne : isEqual lastChange.value lastChange.previous = false) :
    (undoLast e).history = es ∧
    (undoLast e).objGet lastChange.objId lastChange.key = lastChange.previous := by
  have hlast : e.history.getLast? = some lastChange := by
    rw [hh, List.getLast?_concat]
  constructor
  · rw [undoLast_history, hh, List.dropLast_concat]
  · exact undoLast_objGet e lastChange hlast htrk (hcur ▸ hne)

theorem undoLoop_history (stop : Nat) :
    ∀ (f : Nat) (e : Engine), e.history.length ≤ f →
      (undoLoop f stop e).history = e.history.take stop := by
  intro f
  induction f with
  | zero =>
      intro e hf
      have h0 : e.history = [] := List.eq_nil_of_length_eq_zero (Nat.le_zero.mp hf)
      simp [undoLoop, h0]
  | succ f ih =>
      intro e hf
      unfold undoLoop
      by_cases hlt : stop < e.history.length
      · rw [if_pos hlt]
        rw [ih (undoLast e) (by rw [undoLast_history, List.length_dropLast]; omega)]
        rw [undoLast_history, List.dropLast_eq_take, List.take_take,
          min_eq_left (by omega)]
      · rw [if_neg hlt]
        rw [List.take_of_length_le (by omega)]

theorem undoLoop_redo (stop : Nat) :
    ∀ (f : Nat) (e : Engine), e.history.length ≤ f →
      e.history.length - stop + e.redoStack.length ≤ e.maxDepth →
      (undoLoop f stop e).redoStack =
        e.redoStack ++ (e.history.drop stop).reverse := by
  intro f
  induction f with
  | zero =>
      intro e hf hcap
      have h0 : e.history = [] := List.eq_nil_of_length_eq_zero (Nat.le_zero.mp hf)
      simp [undoLoop, h0]
  | succ f ih =>
      intro e hf hcap
      unfold undoLoop
      by_cases hlt : stop < e.history.length
      · rw [if_pos hlt]
        obtain ⟨last, hlast⟩ : ∃ x, e.history.getLast? = some x := by
          cases hl : e.history.getLast? with
          | none =>
              exact absurd (List.getLast?_eq_none_iff.mp hl)
                (by intro h0; rw [h0] at hlt; simp at hlt)
          | some x => exact ⟨x, rfl⟩
        have hcap1 : e.redoStack.length < e.maxDepth := by omega
        have hsplit : e.history.dropLast ++ [last] = e.history :=
          List.dropLast_append_getLast? last (by simp [hlast])
        rw [ih (undoLast e) (by rw [undoLast_history, List.length_dropLast]; omega)
            (by rw [undoLast_history, List.length_dropLast,
                undoLast_redo e last hlast hcap1, List.length_append,
                undoLast_maxDepth]
                simp
                omega)]
        rw [undoLast_redo e last hlast hcap1, undoLast_history, List.append_assoc]
        congr 1
        conv_rhs => rw [← hsplit]
        rw [List.drop_append_of_le_length (by rw [List.length_dropLast]; omega),
          List.reverse_append]
        simp
      · rw [if_neg hlt]
        rw [List.drop_eq_nil_of_le (by omega)]
        simp

theorem chainLast_append (v0 : Value) :
    ∀ (es : List Entry) (en : Entry),
      chainLast v0 (es ++ [en]) = en.value := by
  intro es
  induction es generalizing v0 with
  | nil => intro en; rfl
  | cons e2 rest ih => intro en; exact ih e2.value en

theorem chainFrom_append (o : Nat) (k : String) :
    ∀ (es : List Entry) (v0 : Value) (en : Entry),
      chainFrom o k v0 (es ++ [en]) ↔
        (chainFrom o k v0 es ∧ en.objId = o ∧ en.key = k ∧
         en.previous = chainLast v0 es ∧ isEqual en.value en.previous = false) := by
  intro es
  induction es with
  | nil =>
      intro v0 en
      simp only [List.nil_append, chainFrom, chainLast]
      tauto
  | cons e2 rest ih =>
      intro v0 en
      constructor
      · rintro ⟨ho, hk, hp, hne, hrest⟩
        obtain ⟨hc, ho2, hk2, hp2, hne2⟩ := (ih e2.value en).mp hrest
        exact ⟨⟨ho, hk, hp, hne, hc⟩, ho2, hk2, hp2, hne2⟩
      · rintro ⟨⟨ho, hk, hp, hne, hc⟩, ho2, hk2, hp2, hne2⟩
        exact ⟨ho, hk, hp, hne, (ih e2.value en).mpr ⟨hc, ho2, hk2, hp2, hne2⟩⟩

/-- The write phase of the round-trip: a consecutive-distinct sequence of
writes, fitting in the cap, appends a chain of entries recording every
transition and leaves the last value on the object. -/
theorem writeSeq_spec (o : Nat) (k : String) :
    ∀ (vs : List Value) (e : Engine),
      trackedKey e o k = true →
      e.histEnabled = true →
      e.history.length + vs.length ≤ e.maxDepth →
      distinctSeq (e.objGet o k) vs = true →
      ∃ es : List Entry,
        (writeSeq e o k vs).history = e.history ++ es ∧
        es.length = vs.length ∧
        chainFrom o k (e.objGet o k) es ∧
        (writeSeq e o k vs).objGet o k = chainLast (e.objGet o k) es ∧
        trackedKey (writeSeq e o k vs) o k = true ∧
        (writeSeq e o k vs).histEnabled = true ∧
        (writeSeq e o k vs).maxDepth = e.maxDepth := by
  intro vs
  induction vs with
  | nil =>
      intro e h1 h2 h3 h4
      exact ⟨[], by simp [writeSeq], rfl, trivial, by simp [writeSeq, chainLast],
        h1, h2, rfl⟩
  | cons v rest ih =>
      intro e h1 h2 h3 h4
      have hd : distinctSeq (e.objGet o k) (v :: rest) =
          (!isEqual (e.objGet o k) v && !isEqual v (e.objGet o k) &&
            distinctSeq v rest) := rfl
      rw [hd] at h4
      simp only [Bool.and_eq_true, Bool.not_eq_true'] at h4
      have h4' : isEqual (e.objGet o k) v = false ∧ isEqual v (e.objGet o k) = false ∧
          distinctSeq v rest = true := ⟨h4.1.1, h4.1.2, h4.2⟩
      have hlt : e.history.length < e.maxDepth := by
        simp only [List.length_cons] at h3
        omega
      have hpush := setTrap_history_push e o k v h1 h4'.1 h2 hlt
      have hget := setTrap_objGet e o k v h1 h4'.1
      have htrk2 : trackedKey (setTrap e o k v).2 o k = true := by
        rw [setTrap_trackedKey]
        exact h1
      have henab2 : (setTrap e o k v).2.histEnabled = true := by
        rw [setTrap_histEnabled]
        exact h2
      have hlen2 : (setTrap e o k v).2.history.length + rest.length ≤
          (setTrap e o k v).2.maxDepth := by
        rw [hpush, setTrap_maxDepth, List.length_append]
        simp only [List.length_cons, List.length_nil] at h3 ⊢
        omega
      have hdist2 : distinctSeq ((setTrap e o k v).2.objGet o k) rest = true := by
        rw [hget]
        exact h4'.2.2
      obtain ⟨es, he1, he2, he3, he4, he5, he6, he7⟩ :=
        ih (setTrap e o k v).2 htrk2 henab2 hlen2 hdist2
      refine ⟨⟨e.nextEid, e.now, o, k, e.objGet o k, v⟩ :: es, ?_, ?_, ?_, ?_, ?_, ?_, ?_⟩
      · show (writeSeq (setTrap e o k v).2 o k rest).history = _
        rw [he1, hpush, List.append_assoc]
        rfl
      · simp [he2]
      · exact ⟨rfl, rfl, rfl, by rw [show (⟨e.nextEid, e.now, o, k, e.objGet o k, v⟩ : Entry).value = v from rfl]; exact h4'.2.1, by rw [← hget]; exact he3⟩
      · show (writeSeq (setTrap e o k v).2 o k rest).objGet o k = _
        rw [he4, hget]
        rfl
      · exact he5
      · exact he6
      · show (writeSeq (setTrap e o k v).2 o k rest).maxDepth = _
        rw [he7, setTrap_maxDepth]

/-- The undo phase of the round-trip: undoing once per chained entry
restores the starting value and empties the log. -/
theorem undoN_chain (o : Nat) (k : String) :
    ∀ (es : List Entry) (e : Engine) (v0 : Value),
      trackedKey e o k = true →
      e.history = es →
      chainFrom o k v0 es →
      e.objGet o k = chainLast v0 es →
      (undoN es.length e).objGet o k = v0 ∧ (undoN es.length e).history = [] := by
  intro es
  induction es using List.reverseRecOn with
  | nil =>
      intro e v0 _ hh _ hget
      exact ⟨by simpa [undoN, chainLast] using hget, by simpa [undoN] using hh⟩
  | append_singleton es en ih =>
      intro e v0 htrk hh hchain hget
      obtain ⟨hc, ho, hk, hp, hne⟩ := (chainFrom_append o k es v0 en).mp hchain
      have hcur : e.objGet en.objId en.key = en.value := by
        rw [ho, hk, hget, chainLast_append]
      have hstep := undoLast_step e es en hh (by rw [ho, hk]; exact htrk) hcur hne
      have hlen : (es ++ [en]).length = es.length + 1 := by simp
      rw [hlen]
      show (undoN es.length (undo none e)).objGet o k = v0 ∧
        (undoN es.length (undo none e)).history = []
      have hundo : undo none e = undoLast e := rfl
      rw [hundo]
      refine ih (undoLast e) v0 ?_ hstep.1 hc ?_
      · rw [undoLast_trackedKey]
        exact htrk
      · rw [← ho, ← hk, hstep.2, hp]

/-!  ## Claims -/

/-- Claim C3: a proxy assignment to a key that has no entry in the
property tracking map is rejected: the set trap returns the failure
indicator `false` instead of throwing, and the engine — the underlying
object, the history log, the re-render counter and the call log included
— is left completely unchanged. -/
theorem C3_unknown_key_write_rejected (e : Engine) (o : Nat) (k : String)
    (v : Value) (h : trackedKey e o k = false) :
    setTrap e o k v = (false, e) := by
  unfold setTrap
  split
  · rfl
  next smap h1 =>
    split
    · rfl
    next info h2 =>
      have htrue : trackedKey e o k = true := trackedKey_iff.mpr ⟨smap, info, h1, h2⟩
      rw [htrue] at h
      cases h

theorem C3_witness :
    trackedKey baseEngine 0 "zzz" = false ∧
    setTrap baseEngine 0 "zzz" (Value.num 7) = (false, baseEngine) :=
  ⟨rfl, C3_unknown_key_write_rejected baseEngine 0 "zzz" (Value.num 7) rfl⟩

/-- Claim C1 counterexample: on `baseEngine` (tracked key `a` with current
value `0`, one non-recording subscriber targeting `(0, a)`), writing the
`isEqual`-equal value `0` changes no state but invokes the subscriber
callback once — so the write is not a complete no-op: the claim's "no
subscriber callback is invoked" is false.  (The subscriber loop of the
set trap runs unconditionally, outside the `isEqual` guard.) -/
theorem C1_counterexample :
    isEqual (baseEngine.objGet 0 "a") (Value.num 0) = true ∧
    baseEngine.calls = [] ∧
    (setTrap baseEngine 0 "a" (Value.num 0)).2.calls =
      [⟨0, "a", Value.num 0, Value.num 0⟩] ∧
    (setTrap baseEngine 0 "a" (Value.num 0)).2.calls.length ≠
      baseEngine.calls.length :=
  ⟨rfl, rfl, rfl, by decide⟩

/-- Claim C1 (amended): a proxy write of a value `v` with
`isEqual(currentValue, v)` true changes no engine state — the modified
flag, the underlying object, the history log, the redo stack and the
re-render counter are all untouched and the write reports success — but
it is not a complete no-op: every non-recording subscriber whose targets
contain the written property still has its callback invoked, with the
(equal) new value and the previous value. -/
theorem C1_equal_write_noop_except_callbacks (e : Engine) (o : Nat)
    (k : String) (v : Value)
    (htrk : trackedKey e o k = true)
    (heq : isEqual (e.objGet o k) v = true) :
    setTrap e o k v =
      (true, { e with
        calls := e.calls ++ notifications e.subs o k v (e.objGet o k) }) := by
  obtain ⟨smap, info, h1, h2⟩ := trackedKey_iff.mp htrk
  simp only [setTrap, h1, h2, heq]
  simp

theorem C1_witness :
    trackedKey baseEngine 0 "a" = true ∧
    isEqual (baseEngine.objGet 0 "a") (Value.num 0) = true ∧
    setTrap baseEngine 0 "a" (Value.num 0) =
      (true, { baseEngine with
        calls := baseEngine.calls ++
          notifications baseEngine.subs 0 "a" (Value.num 0)
            (baseEngine.objGet 0 "a") }) :=
  ⟨rfl, rfl,
    C1_equal_write_noop_except_callbacks baseEngine 0 "a" (Value.num 0) rfl rfl⟩

/-- Claim C10: every history operation with nothing applicable to do is a
complete no-op returning the engine unchanged: `undo()` on an empty log,
`undo(i)` and `revert(i)` with `i < 0` or `i ≥ log length`, `redo()` on
an empty redo stack, and `restore(id)` with an id not present in the
log. -/
theorem C10_vacuous_history_ops (e : Engine) (i : Int) (s : Nat) (all : Bool) :
    (e.history = [] → undo none e = e) ∧
    ((i < 0 ∨ (e.history.length : Int) ≤ i) → undo (some i) e = e) ∧
    ((i < 0 ∨ (e.history.length : Int) ≤ i) → revert i e = e) ∧
    (e.redoStack = [] → redo all e = e) ∧
    (findIdxFrom 0 e.history s = none → restore (some s) e = e) := by
  refine ⟨?_, ?_, ?_, ?_, ?_⟩
  · intro h
    exact undoLast_empty e h
  · intro h
    show (if i < 0 ∨ (e.history.length : Int) ≤ i then e
      else undoLoop e.history.length i.toNat e) = e
    rw [if_pos h]
  · intro h
    unfold revert
    rw [if_pos h]
  · intro h
    unfold redo
    rw [if_pos (by rw [h]; rfl)]
  · intro h
    show (match findIdxFrom 0 e.history s with
      | none => e
      | some i =>
          undoLoop ({ e with redoStack := ([] : List Entry) } : Engine).history.length
            (i + 1) { e with redoStack := [] }) = e
    rw [h]

theorem C10_witness :
    undo none plainEngine = plainEngine ∧
    undo (some (-1)) plainEngine = plainEngine ∧
    undo (some 5) plainEngine = plainEngine ∧
    revert 5 plainEngine = plainEngine ∧
    redo true plainEngine = plainEngine ∧
    restore (some 99) plainEngine = plainEngine :=
  ⟨(C10_vacuous_history_ops plainEngine 5 99 true).1 rfl,
   (C10_vacuous_history_ops plainEngine (-1) 99 true).2.1 (Or.inl (by decide)),
   (C10_vacuous_history_ops plainEngine 5 99 true).2.1 (Or.inr (by decide)),
   (C10_vacuous_history_ops plainEngine 5 99 true).2.2.1 (Or.inr (by decide)),
   (C10_vacuous_history_ops plainEngine 5 99 true).2.2.2.1 rfl,
   (C10_vacuous_history_ops plainEngine 5 99 true).2.2.2.2 rfl⟩

/-- Claim C4 counterexample: with history enabled and the cap configured
at `maxDepth = 1`, two distinct-valued writes (`0 → 1 → 2`) to the
tracked key `a` overflow the log (the first entry is dropped), so two
`undo()` calls leave the log empty but restore only `1`, not the
original `0`: the claim fails for `N > maxDepth`. -/
theorem C4_counterexample :
    depth1Engine.histEnabled = true ∧
    depth1Engine.maxDepth = 1 ∧
    depth1Engine.objGet 0 "a" = Value.num 0 ∧
    distinctSeq (depth1Engine.objGet 0 "a") [Value.num 1, Value.num 2] = true ∧
    (undoN 2 (writeSeq depth1Engine 0 "a" [Value.num 1, Value.num 2])).history = [] ∧
    (undoN 2 (writeSeq depth1Engine 0 "a" [Value.num 1, Value.num 2])).objGet 0 "a" =
      Value.num 1 ∧
    Value.num 1 ≠ Value.num 0 :=
  ⟨rfl, rfl, rfl, rfl, rfl, rfl, by simp⟩

/-- Claim C4 (amended): for any sequence of `N` consecutively distinct
(non-`isEqual`, in both orders) values written to one tracked key with
history enabled, starting from an empty log, **provided `N ≤ maxDepth`**
(so the capped ring drops nothing), calling `undo()` `N` times restores
the key to its original value and leaves the history log empty. -/
theorem C4_round_trip_undo (e : Engine) (o : Nat) (k : String)
    (vs : List Value)
    (htrk : trackedKey e o k = true)
    (hh : e.histEnabled = true)
    (hempty : e.history = [])
    (hcap : vs.length ≤ e.maxDepth)
    (hdist : distinctSeq (e.objGet o k) vs = true) :
    (undoN vs.length (writeSeq e o k vs)).objGet o k = e.objGet o k ∧
    (undoN vs.length (writeSeq e o k vs)).history = [] := by
  obtain ⟨es, he1, he2, he3, he4, he5, _, _⟩ :=
    writeSeq_spec o k vs e htrk hh (by rw [hempty]; simpa) hdist
  rw [← he2]
  exact undoN_chain o k es (writeSeq e o k vs) (e.objGet o k) he5
    (by rw [he1, hempty]; rfl) he3 he4

theorem C4_witness :
    distinctSeq (plainEngine.objGet 0 "a") [Value.num 1, Value.num 2] = true ∧
    (undoN 2 (writeSeq plainEngine 0 "a" [Value.num 1, Value.num 2])).objGet 0 "a" =
      plainEngine.objGet 0 "a" ∧
    (undoN 2 (writeSeq plainEngine 0 "a" [Value.num 1, Value.num 2])).history = [] :=
  ⟨rfl,
   (C4_round_trip_undo plainEngine 0 "a" [Value.num 1, Value.num 2]
      rfl rfl rfl (by decide) rfl).1,
   (C4_round_trip_undo plainEngine 0 "a" [Value.num 1, Value.num 2]
      rfl rfl rfl (by decide) rfl).2⟩

/-- A single write keeps the log within a positive cap (the push path
drops the oldest entry first whenever the log is full). -/
theorem setTrap_history_length (e : Engine) (o : Nat) (k : String) (v : Value)
    (hpos : 1 ≤ e.maxDepth) (hlen : e.history.length ≤ e.maxDepth) :
    (setTrap e o k v).2.history.length ≤ e.maxDepth := by
  unfold setTrap
  split
  · exact hlen
  next smap h1 =>
    split
    · exact hlen
    next info h2 =>
      by_cases heq : isEqual (e.objGet o k) v
      · simp [heq, hlen]
      · by_cases hh : e.histEnabled
        · by_cases hcap : e.maxDepth ≤ e.history.length
          · simp only [heq, hh, hcap, if_true, if_false, Bool.false_eq_true]
            simp only [List.length_append, List.length_drop, List.length_cons,
              List.length_nil]
            simp
            omega
          · simp only [heq, hh, hcap, if_true, if_false, Bool.false_eq_true]
            simp only [List.length_append, List.length_cons, List.length_nil]
            simp
            omega
        · simp [heq, hh, hlen]

/-- Claim C9 counterexample: `maxDepth` is configurable to `0` via
`enableHistory`, and then a single value-changing write leaves one entry
in the log — the entry count exceeds the configured cap. -/
theorem C9_counterexample :
    depth0Engine.maxDepth = 0 ∧
    depth0Engine.histEnabled = true ∧
    (setTrap depth0Engine 0 "a" (Value.num 1)).2.history.length = 1 ∧
    ¬ ((setTrap depth0Engine 0 "a" (Value.num 1)).2.history.length ≤
        depth0Engine.maxDepth) :=
  ⟨rfl, rfl, rfl, by decide⟩

/-- Claim C9 (amended): **provided the configured `maxDepth` is at least
1**, the history log is capped: no write — and no sequence of writes —
ever pushes the entry count past `maxDepth`; when a write arrives with
the log full, the oldest entry is silently dropped and the new entry
appended (no error: the write path is total); and the redo stack obeys
the same cap under `undoLast`.  (With `maxDepth = 0` the cap is
exceeded, see the counterexample.) -/
theorem C9_history_cap (e : Engine) (o : Nat) (k : String) (v : Value)
    (ws : List (Nat × String × Value))
    (hpos : 1 ≤ e.maxDepth)
    (hlen : e.history.length ≤ e.maxDepth)
    (hred : e.redoStack.length ≤ e.maxDepth) :
    ((setTrap e o k v).2.history.length ≤ e.maxDepth) ∧
    ((ws.foldl (fun acc w => (setTrap acc w.1 w.2.1 w.2.2).2) e).history.length ≤
      e.maxDepth) ∧
    ((undoLast e).history.length ≤ e.maxDepth) ∧
    ((undoLast e).redoStack.length ≤ e.maxDepth) ∧
    (e.history.length = e.maxDepth → e.histEnabled = true →
      trackedKey e o k = true → isEqual (e.objGet o k) v = false →
      (setTrap e o k v).2.history =
        e.history.drop 1 ++ [⟨e.nextEid, e.now, o, k, e.objGet o k, v⟩]) := by
  refine ⟨setTrap_history_length e o k v hpos hlen, ?_, ?_, ?_, ?_⟩
  · clear hred
    induction ws generalizing e with
    | nil => exact hlen
    | cons w rest ih =>
        simp only [List.foldl_cons]
        have h1 := setTrap_history_length e w.1 w.2.1 w.2.2 hpos hlen
        have h2 := setTrap_maxDepth e w.1 w.2.1 w.2.2
        have := ih (setTrap e w.1 w.2.1 w.2.2).2 (by rw [h2]; exact hpos)
          (by rw [h2]; exact h1)
        rw [h2] at this
        exact this
  · rw [undoLast_history, List.length_dropLast]
    omega
  · cases hlast : e.history.getLast? with
    | none => rw [undoLast_empty e (List.getLast?_eq_none_iff.mp hlast)]; exact hred
    | some lastChange =>
        rw [undoLast_eq e lastChange hlast]
        show (setTrap _ _ _ _).2.redoStack.length ≤ _
        rw [setTrap_redoStack]
        by_cases hcap : e.maxDepth ≤ e.redoStack.length
        · simp only [hcap, if_true]
          rw [List.length_append, List.length_drop]
          simp
          omega
        · simp only [hcap, if_false]
          rw [List.length_append]
          simp
          omega
  · intro h1 h2 h3 h4
    exact setTrap_history_push_full e o k v h3 h4 h2 (by omega)

theorem C9_witness :
    fullEngine.maxDepth = 1 ∧ fullEngine.history.length = 1 ∧
    ((setTrap fullEngine 0 "a" (Value.num 2)).2.history.length ≤ fullEngine.maxDepth) ∧
    (([((0 : Nat), ("a", Value.num 2)), (0, ("a", Value.num 3))].foldl
        (fun acc w => (setTrap acc w.1 w.2.1 w.2.2).2) fullEngine).history.length ≤
      fullEngine.maxDepth) ∧
    ((undoLast fullEngine).history.length ≤ fullEngine.maxDepth) ∧
    ((undoLast fullEngine).redoStack.length ≤ fullEngine.maxDepth) ∧
    ((setTrap fullEngine 0 "a" (Value.num 2)).2.history =
      fullEngine.history.drop 1 ++
        [⟨fullEngine.nextEid, fullEngine.now, 0, "a",
          fullEngine.objGet 0 "a", Value.num 2⟩]) :=
  ⟨rfl, rfl,
   (C9_history_cap fullEngine 0 "a" (Value.num 2)
      [(0, ("a", Value.num 2)), (0, ("a", Value.num 3))]
      (by decide) (by decide) (by decide)).1,
   (C9_history_cap fullEngine 0 "a" (Value.num 2)
      [(0, ("a", Value.num 2)), (0, ("a", Value.num 3))]
      (by decide) (by decide) (by decide)).2.1,
   (C9_history_cap fullEngine 0 "a" (Value.num 2)
      [(0, ("a", Value.num 2)), (0, ("a", Value.num 3))]
      (by decide) (by decide) (by decide)).2.2.1,
   (C9_history_cap fullEngine 0 "a" (Value.num 2)
      [(0, ("a", Value.num 2)), (0, ("a", Value.num 3))]
      (by decide) (by decide) (by decide)).2.2.2.1,
   (C9_history_cap fullEngine 0 "a" (Value.num 2)
      [(0, ("a", Value.num 2)), (0, ("a", Value.num 3))]
      (by decide) (by decide) (by decide)).2.2.2.2 rfl rfl rfl rfl⟩

/-- Claim C5 counterexample: with a non-empty redo stack (after one write
and one undo), a new forward value-changing write (`0 → 2`) returns with
the redo stack untouched — not cleared: the set trap never touches the
redo stack.  (And `restore` would then refill the stack it clears, see
the amended theorem.) -/
theorem C5_counterexample :
    afterUndoEngine.redoStack.length = 1 ∧
    isEqual (afterUndoEngine.objGet 0 "a") (Value.num 2) = false ∧
    (setTrap afterUndoEngine 0 "a" (Value.num 2)).1 = true ∧
    (setTrap afterUndoEngine 0 "a" (Value.num 2)).2.redoStack.length ≠ 0 :=
  ⟨rfl, rfl, rfl, by decide⟩

/-- Claim C5 (amended): a forward proxy write never changes the redo
stack (value-changing or not); `restore(id)` does clear the redo stack —
but only before its undo loop runs, and each `undo()` of that loop then
pushes the popped entry, so immediately after `restore(id)` returns the
redo stack holds exactly the entries the restore undid (most recent
first), and is empty only when there was nothing to undo. -/
theorem C5_redo_stack_policy (e : Engine) (s i : Nat)
    (hfind : findIdxFrom 0 e.history s = some i)
    (hcap : e.history.length - (i + 1) ≤ e.maxDepth) :
    (∀ (e2 : Engine) (o : Nat) (k : String) (v : Value),
        (setTrap e2 o k v).2.redoStack = e2.redoStack) ∧
    (restore (some s) e).redoStack = (e.history.drop (i + 1)).reverse := by
  refine ⟨fun e2 o k v => setTrap_redoStack e2 o k v, ?_⟩
  show (match findIdxFrom 0 e.history s with
    | none => e
    | some j =>
        undoLoop ({ e with redoStack := ([] : List Entry) } : Engine).history.length
          (j + 1) { e with redoStack := [] }).redoStack = _
  rw [hfind]
  have h := undoLoop_redo (i + 1) e.history.length { e with redoStack := [] }
    (by exact Nat.le_refl _) (by simpa using hcap)
  simpa using h

theorem C5_witness :
    findIdxFrom 0 twoWritesEngine.history 0 = some 0 ∧
    (setTrap plainEngine 0 "a" (Value.num 9)).2.redoStack = plainEngine.redoStack ∧
    (restore (some 0) twoWritesEngine).redoStack =
      (twoWritesEngine.history.drop 1).reverse :=
  ⟨rfl,
   (C5_redo_stack_policy twoWritesEngine 0 0 rfl (by decide)).1 plainEngine 0 "a"
     (Value.num 9),
   (C5_redo_stack_policy twoWritesEngine 0 0 rfl (by decide)).2⟩

/-- Claim C6 counterexample: `redo()` does not suspend history recording.
Write `1` to `a` (the log records the single entry id `0`), `undo()`
(log empty), then `redo()`: the redone assignment goes through the live
proxy write path with history still enabled, so the log now holds a
freshly recorded entry with the new id `1` — an entry that was never in
the log before, not a restoration of the previously recorded entry. -/
theorem C6_counterexample :
    ((setTrap plainEngine 0 "a" (Value.num 1)).2.history.map Entry.eid = [0]) ∧
    afterUndoEngine.history = [] ∧
    afterUndoEngine.histEnabled = true ∧
    ((redo false afterUndoEngine).history.map Entry.eid = [1]) ∧
    (redo false afterUndoEngine).history.map Entry.eid ≠ [0] :=
  ⟨rfl, rfl, rfl, rfl, by decide⟩

/-- Claim C6 (amended): `undo`, `revert` and `restore` apply their state
mutations through writes performed while history recording is suspended
— observably, they only ever pop, erase or truncate the log
(`undoLast` drops the last entry, a valid `revert i` erases exactly
entry `i`, `restore(id)` truncates to the identified entry) — but `redo`
does not: it re-applies the value through the normal proxy write path,
so with history enabled a `redo()` of a genuine change appends a freshly
recorded entry (new id from the id generator) and pops the redo stack. -/
theorem C6_history_suspension (eU eV eR eD : Engine) (i : Int) (s j : Nat)
    (r : Entry) (R : List Entry)
    (hvalid : 0 ≤ i ∧ i < (eV.history.length : Int))
    (hfind : findIdxFrom 0 eR.history s = some j)
    (hstack : eD.redoStack = R ++ [r])
    (htrk : trackedKey eD r.objId r.key = true)
    (hne : isEqual (eD.objGet r.objId r.key) r.value = false)
    (hh : eD.histEnabled = true)
    (hcap : eD.history.length < eD.maxDepth) :
    (undoLast eU).history = eU.history.dropLast ∧
    (revert i eV).history = eV.history.eraseIdx i.toNat ∧
    (restore (some s) eR).history = eR.history.take (j + 1) ∧
    (redo false eD).history =
      eD.history ++ [⟨eD.nextEid, eD.now, r.objId, r.key,
        eD.objGet r.objId r.key, r.value⟩] ∧
    (redo false eD).redoStack = R := by
  have hredo : redo false eD =
      (setTrap { eD with redoStack := R } r.objId r.key r.value).2 := by
    have hlen : eD.redoStack.length = R.length + 1 := by rw [hstack]; simp
    unfold redo
    rw [if_neg (by omega)]
    rw [hlen]
    show (match eD.redoStack.getLast? with
      | none => eD
      | some redoChange =>
          let e1 : Engine := { eD with redoStack := eD.redoStack.dropLast }
          let e2 := (setTrap e1 redoChange.objId redoChange.key redoChange.value).2
          if false && 0 < e2.redoStack.length then redoLoop R.length false e2
          else e2) = _
    rw [hstack, List.getLast?_concat]
    show (setTrap { eD with redoStack := (R ++ [r]).dropLast } r.objId r.key
      r.value).2 = _
    rw [List.dropLast_concat]
  refine ⟨undoLast_history eU, ?_, ?_, ?_, ?_⟩
  · unfold revert
    rw [if_neg (by rintro (hlt | hge) <;> omega)]
    cases hget : eV.history.get? i.toNat with
    | none =>
        exfalso
        rw [List.get?_eq_none] at hget
        omega
    | some entry =>
        show ((setTrap { eV with histEnabled := false } entry.objId entry.key
            entry.previous).2.history).eraseIdx i.toNat =
          eV.history.eraseIdx i.toNat
        rw [setTrap_history_suspended _ _ _ _ rfl]
  · show (match findIdxFrom 0 eR.history s with
      | none => eR
      | some j2 =>
          undoLoop ({ eR with redoStack := ([] : List Entry) } : Engine).history.length
            (j2 + 1) { eR with redoStack := [] }).history = _
    rw [hfind]
    exact undoLoop_history (j + 1) eR.history.length { eR with redoStack := [] }
      (Nat.le_refl _)
  · rw [hredo]
    have hpush := setTrap_history_push { eD with redoStack := R } r.objId r.key r.value
      ((@trackedKey_congr { eD with redoStack := R } eD rfl r.objId r.key).trans htrk)
      (by
        rw [@objGet_congr { eD with redoStack := R } eD rfl r.objId r.key]
        exact hne)
      hh hcap
    rw [hpush]
    rfl
  · rw [hredo, setTrap_redoStack]

theorem C6_witness :
    (undoLast plainEngine).history = plainEngine.history.dropLast ∧
    (revert 0 (setTrap plainEngine 0 "a" (Value.num 1)).2).history =
      (setTrap plainEngine 0 "a" (Value.num 1)).2.history.eraseIdx 0 ∧
    (restore (some 0) twoWritesEngine).history = twoWritesEngine.history.take 1 ∧
    (redo false afterUndoEngine).history =
      afterUndoEngine.history ++ [⟨afterUndoEngine.nextEid, afterUndoEngine.now,
        0, "a", afterUndoEngine.objGet 0 "a", Value.num 1⟩] ∧
    (redo false afterUndoEngine).redoStack = [] :=
  C6_history_suspension plainEngine (setTrap plainEngine 0 "a" (Value.num 1)).2
    twoWritesEngine afterUndoEngine 0 0 0
    ⟨0, 0, 0, "a", Value.num 0, Value.num 1⟩ []
    (by decide) rfl rfl rfl rfl rfl (by decide)

/-- Claim C7: after `subscribe(() => [state.a], cb)` — the selector reads
exactly `(state, a)` — a write to any other tracked key `state.keyB`
never produces a call for that subscriber, while a value-changing write
to `state.a` produces exactly one call for it, carrying the key `a`,
the new value, and the old value.  (Calls are filtered by the
subscriber's registration index; the subscription is made while no other
subscriber is recording, as in the source's synchronous `subscribe`.) -/
theorem C7_dependency_tracking (e : Engine) (o : Nat) (keyB : String)
    (v w : Value)
    (hrec : ∀ s2 ∈ e.subs, s2.recording = false)
    (hkB : keyB ≠ "a")
    (htrkB : trackedKey e o keyB = true)
    (htrkA : trackedKey e o "a" = true)
    (_hchg : isEqual (e.objGet o "a") v = false) :
    ((setTrap (subscribe e [(o, "a")]) o keyB w).2.calls.filter
        (fun c => c.subIdx == e.subs.length) =
      e.calls.filter (fun c => c.subIdx == e.subs.length)) ∧
    ((setTrap (subscribe e [(o, "a")]) o "a" v).2.calls.filter
        (fun c => c.subIdx == e.subs.length) =
      e.calls.filter (fun c => c.subIdx == e.subs.length) ++
        [⟨e.subs.length, "a", v, e.objGet o "a"⟩]) := by
  have hs := subscribe_spec e [(o, "a")] hrec
  have hsubs : (subscribe e [(o, "a")]).subs = e.subs ++ [⟨false, [(o, "a")]⟩] := by
    rw [hs]
  have hsm : (subscribe e [(o, "a")]).smaps = e.smaps := by rw [hs]
  have hhp : (subscribe e [(o, "a")]).heap = e.heap := by rw [hs]
  have hcalls : (subscribe e [(o, "a")]).calls = e.calls := by rw [hs]
  have hobj : ∀ k2, (subscribe e [(o, "a")]).objGet o k2 = e.objGet o k2 :=
    fun k2 => objGet_congr hhp o k2
  have htrk2 : ∀ k2, trackedKey (subscribe e [(o, "a")]) o k2 = trackedKey e o k2 :=
    fun k2 => trackedKey_congr hsm o k2
  have hold : ∀ (key2 : String) (vv pv : Value),
      (notifyFrom 0 e.subs o key2 vv pv).filter
        (fun c => c.subIdx == e.subs.length) = [] := by
    intro key2 vv pv
    rw [List.filter_eq_nil_iff]
    intro c hc
    have hb := notifyFrom_subIdx o key2 vv pv e.subs 0 c hc
    simp only [beq_iff_eq]
    omega
  constructor
  · rw [setTrap_calls _ _ _ _ (by rw [htrk2 keyB]; exact htrkB), hcalls, hsubs]
    unfold notifications
    rw [notifyFrom_append, List.filter_append, List.filter_append, hold]
    rw [notifyFrom_cons, notifyFrom_nil]
    have hcond : (!(false : Bool) &&
        ([((o : Nat), ("a" : String))].any fun t => t.1 == o && t.2 == keyB)) = false := by
      simp [Ne.symm hkB]
    rw [hcond]
    simp
  · rw [setTrap_calls _ _ _ _ (by rw [htrk2 "a"]; exact htrkA), hcalls, hsubs]
    unfold notifications
    rw [notifyFrom_append, List.filter_append, List.filter_append, hold]
    rw [notifyFrom_cons, notifyFrom_nil]
    have hcond : (!(false : Bool) &&
        ([((o : Nat), ("a" : String))].any fun t => t.1 == o && t.2 == "a")) = true := by
      simp
    rw [hcond]
    rw [hobj "a"]
    simp

theorem C7_witness :
    ("b" : String) ≠ "a" ∧
    ((setTrap (subscribe plainEngine [(0, "a")]) 0 "b" (Value.num 9)).2.calls.filter
        (fun c => c.subIdx == plainEngine.subs.length) =
      plainEngine.calls.filter (fun c => c.subIdx == plainEngine.subs.length)) ∧
    ((setTrap (subscribe plainEngine [(0, "a")]) 0 "a" (Value.num 3)).2.calls.filter
        (fun c => c.subIdx == plainEngine.subs.length) =
      plainEngine.calls.filter (fun c => c.subIdx == plainEngine.subs.length) ++
        [⟨plainEngine.subs.length, "a", Value.num 3, plainEngine.objGet 0 "a"⟩]) :=
  ⟨by decide,
   (C7_dependency_tracking plainEngine 0 "b" (Value.num 3) (Value.num 9)
      (fun s2 hs2 => absurd hs2 (List.not_mem_nil s2)) (by decide) rfl rfl rfl).1,
   (C7_dependency_tracking plainEngine 0 "b" (Value.num 3) (Value.num 9)
      (fun s2 hs2 => absurd hs2 (List.not_mem_nil s2)) (by decide) rfl rfl rfl).2⟩

/-- Helper for the copy-on-write claim: a value-changing write by
instance A on a plain object shared by three fresh instances — B with
default options, C with `allowBackgroundMutations: true` — computes to
the one-step system in which B holds the pre-write shallow copy as its
override while A and C observe the live object. -/
theorem cowWrite_step (shared : FieldList) (key : String) (vNew : Value)
    (hne : isEqual (jsLookup shared key) vNew = false) :
    cowWrite ⟨shared, 0, [freshDefault, freshDefault, freshBg]⟩ 0 key vNew =
      ⟨fset shared key vNew, 1,
        [⟨false, 1, none, 0⟩, ⟨false, 1, some shared, 0⟩, ⟨true, 1, none, 1⟩]⟩ := by
  show (if isEqual (jsLookup shared key) vNew = true then
      (⟨shared, 0, [freshDefault, freshDefault, freshBg]⟩ : CowSystem)
    else
      ⟨fset shared key vNew, 0 + 1,
        cowUpdate 0 (0 + 1) shared 0 [freshDefault, freshDefault, freshBg]⟩) = _
  rw [hne]
  simp only [Bool.false_eq_true, if_false]
  rfl

/-- Claim C2: two independent reactive instances wrap the same plain
object; instance A (default options) writes a property; instance B
(default options) still reads the pre-mutation value afterwards, while
instance C, created with `allowBackgroundMutations: true`, reads the
post-mutation value (its re-render having been requested), as does the
writer itself. -/
theorem C2_copy_on_write_isolation (shared : FieldList) (key : String)
    (vNew : Value)
    (hne : isEqual (jsLookup shared key) vNew = false) :
    cowRead (cowWrite ⟨shared, 0, [freshDefault, freshDefault, freshBg]⟩ 0 key vNew)
        1 key = jsLookup shared key ∧
    cowRead (cowWrite ⟨shared, 0, [freshDefault, freshDefault, freshBg]⟩ 0 key vNew)
        2 key = vNew ∧
    cowRead (cowWrite ⟨shared, 0, [freshDefault, freshDefault, freshBg]⟩ 0 key vNew)
        0 key = vNew ∧
    ((cowWrite ⟨shared, 0, [freshDefault, freshDefault, freshBg]⟩ 0 key vNew
      ).instances.get? 2).map CowInstance.rendered = some 1 := by
  rw [cowWrite_step shared key vNew hne]
  refine ⟨rfl, ?_, ?_, rfl⟩
  · show jsLookup (fset shared key vNew) key = vNew
    exact jsLookup_fset_self shared key vNew
  · show jsLookup (fset shared key vNew) key = vNew
    exact jsLookup_fset_self shared key vNew

theorem C2_witness :
    isEqual (jsLookup (flist [("count", Value.num 0)]) "count") (Value.num 1) = false ∧
    cowRead (cowWrite ⟨flist [("count", Value.num 0)], 0,
        [freshDefault, freshDefault, freshBg]⟩ 0 "count" (Value.num 1)) 1 "count" =
      jsLookup (flist [("count", Value.num 0)]) "count" ∧
    cowRead (cowWrite ⟨flist [("count", Value.num 0)], 0,
        [freshDefault, freshDefault, freshBg]⟩ 0 "count" (Value.num 1)) 2 "count" =
      Value.num 1 :=
  ⟨rfl,
   (C2_copy_on_write_isolation (flist [("count", Value.num 0)]) "count"
      (Value.num 1) rfl).1,
   (C2_copy_on_write_isolation (flist [("count", Value.num 0)]) "count"
      (Value.num 1) rfl).2.1⟩

theorem alookup_mem {κ α : Type} [DecidableEq κ] :
    ∀ (l : List (κ × α)) (k : κ) (v : α), alookup l k = some v → (k, v) ∈ l := by
  intro l
  induction l with
  | nil => intro k v h; simp [alookup] at h
  | cons p rest ih =>
      obtain ⟨pk, pv⟩ := p
      intro k v h
      unfold alookup at h
      by_cases hk : pk = k
      · rw [if_pos hk] at h
        injection h with h2
        rw [← hk, ← h2]
        exact List.mem_cons_self (pk, pv) rest
      · rw [if_neg hk] at h
        exact List.mem_cons_of_mem (pk, pv) (ih k v h)

theorem walkFields_key_mem (f : Nat) (h : SHeap) (o : Nat) (d : Bool) :
    ∀ (fields : List (String × SField)) (k : String) (sv : SField),
      (k, sv) ∈ fields → (o, k) ∈ walkFields f h o d fields := by
  intro fields
  induction fields with
  | nil => intro k sv hmem; simp at hmem
  | cons kv rest ih =>
      obtain ⟨kk, ksv⟩ := kv
      intro k sv hmem
      rcases List.mem_cons.mp hmem with heq | hmem2
      · unfold walkFields
        rw [Prod.mk.injEq] at heq
        rw [heq.1]
        exact List.mem_cons_self _ _
      · unfold walkFields
        exact List.mem_cons_of_mem _ (List.mem_append_right _ (ih k sv hmem2))

theorem walkFields_child_sub (f : Nat) (h : SHeap) (o c : Nat)
    (t : Nat × String) (ht : t ∈ walkTargets f h c true) :
    ∀ (fields : List (String × SField)) (k : String),
      (k, SField.child c) ∈ fields → t ∈ walkFields f h o true fields := by
  intro fields
  induction fields with
  | nil => intro k hmem; simp at hmem
  | cons kv rest ih =>
      obtain ⟨kk, ksv⟩ := kv
      intro k hmem
      rcases List.mem_cons.mp hmem with heq | hmem2
      · unfold walkFields
        refine List.mem_cons_of_mem _ (List.mem_append_left _ ?_)
        rw [Prod.mk.injEq] at heq
        rw [← heq.2]
        simpa using ht
      · unfold walkFields
        exact List.mem_cons_of_mem _ (List.mem_append_right _ (ih k hmem2))

theorem walkTargets_step (h : SHeap) (o : Nat)
    (fields : List (String × SField)) (halo : alookup h o = some fields)
    (f : Nat) (d : Bool) :
    walkTargets (f + 1) h o d = walkFields f h o d fields := by
  unfold walkTargets
  rw [halo]

/-- Claim C8 (spec-modelled): with the state shape
`root.obj.inner.x`, a subscription to `state.obj` made with the
deep-mode recursive flag has the doubly nested `(inner, x)` property
among its targets — a write to `state.obj.inner.x` fires the callback —
while the same subscription with `recursive` omitted only targets
`(root, obj)` and does not fire for that nested write. -/
theorem C8_deep_subscription (h : SHeap) (r a b : Nat)
    (fr fa fb : List (String × SField)) (sv : SField)
    (hr : alookup h r = some fr)
    (hro : alookup fr "obj" = some (SField.child a))
    (ha : alookup h a = some fa)
    (hai : alookup fa "inner" = some (SField.child b))
    (hb : alookup h b = some fb)
    (hbx : alookup fb "x" = some sv) :
    firesOn (subscribeTargets h r "obj" RecMode.deep) b "x" = true ∧
    firesOn (subscribeTargets h r "obj" RecMode.off) b "x" = false := by
  have hdeep : subscribeTargets h r "obj" RecMode.deep =
      [(r, "obj")] ++ walkTargets (h.length + 1) h a true := by
    simp only [subscribeTargets, hr, hro]
  have hoff : subscribeTargets h r "obj" RecMode.off = [(r, "obj")] := by
    simp only [subscribeTargets, hr, hro]
  obtain ⟨m, hm⟩ : ∃ m, h.length = m + 1 := by
    cases h with
    | nil => simp [alookup] at hr
    | cons p rest => exact ⟨rest.length, by simp⟩
  constructor
  · rw [hdeep]
    have hx : (b, "x") ∈ walkTargets (m + 1) h b true := by
      rw [walkTargets_step h b fb hb m true]
      exact walkFields_key_mem m h b true fb "x" sv (alookup_mem fb "x" sv hbx)
    have hab : (b, "x") ∈ walkTargets (m + 1 + 1) h a true := by
      rw [walkTargets_step h a fa ha (m + 1) true]
      exact walkFields_child_sub (m + 1) h a b (b, "x") hx fa "inner"
        (alookup_mem fa "inner" (SField.child b) hai)
    have hmem : (b, "x") ∈ [(r, "obj")] ++ walkTargets (h.length + 1) h a true := by
      apply List.mem_append_right
      rw [hm]
      exact hab
    unfold firesOn
    rw [List.any_eq_true]
    exact ⟨(b, "x"), hmem, by simp⟩
  · rw [hoff]
    unfold firesOn
    simp

theorem C8_witness :
    firesOn (subscribeTargets c8Heap 0 "obj" RecMode.deep) 2 "x" = true ∧
    firesOn (subscribeTargets c8Heap 0 "obj" RecMode.off) 2 "x" = false :=
  C8_deep_subscription c8Heap 0 1 2 [("obj", SField.child 1)]
    [("inner", SField.child 2)] [("x", SField.data (Value.num 0))]
    (SField.data (Value.num 0)) rfl rfl rfl rfl rfl rfl

end UseReactive
